import Mathlib

/-!
Verification of the image compositor `create_before_after_comparison`
from `app.py` (before-and-after-views).

The function is embedded shallowly:

* a numpy array holding an image is an `Img`: an explicit shape
  (height, width, channels) together with row-major `data`, a list of
  rows, each row a list of pixels, each pixel a list of channel values;
* Python `int()` applied to `width * slider_position` is `pyInt`
  (truncation toward zero) on exact rationals;
* Python/numpy slicing `a[i:]` with a possibly negative integer `i` is
  `sliceStart` (negative indices wrap by the axis length, then the
  index is clamped into `[0, n]`);
* the in-place slice assignments of lines 35 and 42 of `app.py` become
  the pure row operations `assignColsFrom` and `writeCols`;
* a numpy `ValueError` (a failed broadcast, e.g. writing the 3-channel
  `lineColor` into a 4-channel RGBA array) is modelled by `none`; a
  normal return is `some`.  Broadcasting of a singleton channel axis
  and of 2-dimensional (channel-less) grayscale arrays is not modelled;
  all grids here carry an explicit channel axis.
-/

namespace BeforeAfter

attribute [local semireducible] Rat.mul Rat.inv Rat.add Rat.sub Rat.ofScientific

/-- A pixel: its list of channel values (length = channel count). -/
abbrev Pixel : Type := List ℕ

/-- Row-major pixel data: rows of pixels. -/
abbrev Rows : Type := List (List Pixel)

/-- A numpy-style image array: a shape plus row-major pixel data. -/
structure Img where
  height : ℕ
  width : ℕ
  channels : ℕ
  data : Rows
  deriving DecidableEq

/-- The data of an image matches its declared shape. -/
def Img.WF (g : Img) : Prop :=
  g.data.length = g.height ∧
  ∀ r ∈ g.data, r.length = g.width ∧ ∀ p ∈ r, p.length = g.channels

instance (g : Img) : Decidable g.WF := by
  unfold Img.WF; infer_instance

/-- Python `int()` on a real value: truncation toward zero. -/
def pyInt (q : ℚ) : ℤ := if 0 ≤ q then ⌊q⌋ else ⌈q⌉

/-- Effective start position of the Python slice `a[i:]` (or the stop of
`a[:i]`) on an axis of length `n`: negative indices wrap by `n`, then the
result is clamped into `[0, n]`. -/
def sliceStart (n : ℕ) (i : ℤ) : ℕ :=
  (min (max (if i < 0 then i + n else i) 0) (n : ℤ)).toNat

/-- `g[:h, :w]` on raw row data. -/
def cropRows (h w : ℕ) (g : Rows) : Rows :=
  (g.take h).map (fun r => r.take w)

/-- `g[:h, :w]` on an array (shape updated like numpy's). -/
def crop (h w : ℕ) (g : Img) : Img :=
  { height := min g.height h
    width := min g.width w
    channels := g.channels
    data := cropRows h w g.data }

/-- The slice assignment `dst[:, s:] = src[:, s:]` (line 35 of `app.py`),
as a pure operation on row data of matching shape. -/
def assignColsFrom (s : ℕ) (dst src : Rows) : Rows :=
  List.zipWith (fun d r => d.take s ++ r.drop s) dst src

/-- The slice assignment `g[:, s:e] = color` (line 42 of `app.py`), as a
pure operation on row data. -/
def writeCols (s e : ℕ) (color : Pixel) (g : Rows) : Rows :=
  g.map (fun r => r.mapIdx (fun j p => if s ≤ j ∧ j < e then color else p))

/-- The white marker color `[255, 255, 255]` of line 42 of `app.py`. -/
def lineColor : Pixel := [255, 255, 255]

/-- `line_thickness = 3` of line 39 of `app.py`. -/
def line_thickness : ℕ := 3

/-- `boundary_x = int(width * slider_position)` (line 32 of `app.py`). -/
def boundary_x (width : ℕ) (slider_position : ℚ) : ℤ :=
  pyInt ((width : ℚ) * slider_position)

/-- Shallow embedding of `create_before_after_comparison` (`app.py`,
lines 6-44).  `none` models a numpy `ValueError`: the column assignment
of line 35 raises when the two arrays disagree in channel count, and the
marker write of line 42 raises unless the array's channel count equals
the length of the 3-channel line color. -/
def create_before_after_comparison (image1 image2 : Img) (slider_position : ℚ) :
    Option Img :=
  let img1 := image1
  let img2 := image2
  let height := min img1.height img2.height
  let width := min img1.width img2.width
  let a := crop height width img1
  let b := crop height width img2
  let result := a
  let bx : ℤ := boundary_x width slider_position
  if b.channels = a.channels then
    let s := sliceStart width bx
    let result : Img := { result with data := assignColsFrom s result.data b.data }
    if 0 < bx ∧ bx < (width : ℤ) - 1 then
      let start_x : ℤ := max 0 (bx - (line_thickness / 2 : ℕ))
      let end_x : ℤ := min (width : ℤ) (bx + (line_thickness / 2 : ℕ))
      if result.channels = lineColor.length then
        some { result with
               data := writeCols (sliceStart width start_x) (sliceStart width end_x)
                         lineColor result.data }
      else
        none
    else
      some result
  else
    none

/-- Total pixel accessor on row data (out-of-range positions give `[]`). -/
def pix (g : Rows) (i j : ℕ) : Pixel := (g.getD i []).getD j []

/-- Pixel accessor on the result of a call: the selected pixel of the
returned array, or `[]` when the call raised. -/
def pixAt (r : Option Img) (i j : ℕ) : Pixel :=
  match r with
  | some g => pix g.data i j
  | none => []

/-- The marker band of a call on a width-`W` image with boundary `bx`:
the columns overwritten by line 42 of `app.py`, empty when the guard of
line 38 fails. -/
def inMarkerBand (W : ℕ) (bx : ℤ) (j : ℕ) : Prop :=
  (0 < bx ∧ bx < (W : ℤ) - 1) ∧
    sliceStart W (max 0 (bx - (line_thickness / 2 : ℕ))) ≤ j ∧
    j < sliceStart W (min (W : ℤ) (bx + (line_thickness / 2 : ℕ)))

instance (W : ℕ) (bx : ℤ) (j : ℕ) : Decidable (inMarkerBand W bx j) := by
  unfold inMarkerBand; infer_instance

/-- No pixel of the row data equals the given color. -/
def avoidsColor (g : Rows) (c : Pixel) : Prop :=
  ∀ r ∈ g, ∀ p ∈ r, p ≠ c

instance (g : Rows) (c : Pixel) : Decidable (avoidsColor g c) := by
  unfold avoidsColor; infer_instance

/-- A uniform test grid: `h` rows of `w` copies of pixel `p`. -/
def uniformImg (h w : ℕ) (p : Pixel) : Img :=
  ⟨h, w, p.length, List.replicate h (List.replicate w p)⟩

/-! Basic facts about the list-level building blocks. -/

lemma getD_eq_getElem {α : Type} (l : List α) (d : α) (i : ℕ) (h : i < l.length) :
    l.getD i d = l[i] := by
  simp [List.getD_eq_getElem?_getD, List.getElem?_eq_getElem h]

lemma pix_eq_getElem (g : Rows) (i j : ℕ) (hi : i < g.length)
    (hj : j < g[i].length) : pix g i j = g[i][j] := by
  unfold pix
  rw [getD_eq_getElem g [] i hi, getD_eq_getElem _ [] j hj]

lemma sliceStart_of_nonneg (n : ℕ) (i : ℤ) (h0 : 0 ≤ i) :
    sliceStart n i = min i.toNat n := by
  unfold sliceStart
  have hn : ¬ i < 0 := not_lt.mpr h0
  simp only [hn, if_false]
  omega

lemma sliceStart_le (n : ℕ) (i : ℤ) : sliceStart n i ≤ n := by
  unfold sliceStart
  split <;> omega

lemma sliceStart_mono (n : ℕ) {i₁ i₂ : ℤ} (h0 : 0 ≤ i₁) (h : i₁ ≤ i₂) :
    sliceStart n i₁ ≤ sliceStart n i₂ := by
  rw [sliceStart_of_nonneg n i₁ h0, sliceStart_of_nonneg n i₂ (le_trans h0 h)]
  omega

lemma length_cropRows (h w : ℕ) (g : Rows) :
    (cropRows h w g).length = min h g.length := by
  simp [cropRows]

lemma cropRows_getD (h w : ℕ) (g : Rows) (i : ℕ) (hi : i < min h g.length) :
    (cropRows h w g).getD i [] = (g.getD i []).take w := by
  have h1 : i < (cropRows h w g).length := by rw [length_cropRows]; omega
  have h2 : i < g.length := by omega
  have h3 : i < (g.take h).length := by simp [List.length_take]; omega
  rw [getD_eq_getElem _ [] i h1, getD_eq_getElem g [] i h2]
  unfold cropRows
  rw [List.getElem_map]
  congr 1
  exact List.getElem_take g

lemma spliceRow_length (s : ℕ) (d r : List Pixel) (h : d.length = r.length) :
    (d.take s ++ r.drop s).length = r.length := by
  simp only [List.length_append, List.length_take, List.length_drop, h]
  omega

lemma spliceRow_getElem (s : ℕ) (d r : List Pixel) (hlen : d.length = r.length)
    (j : ℕ) (hj : j < r.length) :
    (d.take s ++ r.drop s).getD j [] = if j < s then d.getD j [] else r.getD j [] := by
  have hjall : j < (d.take s ++ r.drop s).length := by rw [spliceRow_length s d r hlen]; exact hj
  rw [getD_eq_getElem _ [] j hjall]
  by_cases hc : j < s
  · have htk : j < (d.take s).length := by simp [List.length_take]; omega
    rw [List.getElem_append_left htk]
    simp only [hc, if_true, List.getElem_take]
    rw [getD_eq_getElem d [] j (by omega)]
  · have hge : (d.take s).length ≤ j := by simp [List.length_take]; omega
    rw [List.getElem_append_right hge]
    simp only [hc, if_false, List.getElem_drop]
    rw [getD_eq_getElem r [] j hj]
    congr 1
    simp [List.length_take]
    omega

lemma length_assignColsFrom (s : ℕ) (d r : Rows) :
    (assignColsFrom s d r).length = min d.length r.length := by
  simp [assignColsFrom]

lemma assignColsFrom_getD (s : ℕ) (d r : Rows) (i : ℕ)
    (hd : i < d.length) (hr : i < r.length) :
    (assignColsFrom s d r).getD i [] =
      (d.getD i []).take s ++ (r.getD i []).drop s := by
  have h1 : i < (assignColsFrom s d r).length := by rw [length_assignColsFrom]; omega
  rw [getD_eq_getElem _ [] i h1, getD_eq_getElem d [] i hd, getD_eq_getElem r [] i hr]
  unfold assignColsFrom
  rw [List.getElem_zipWith]

lemma length_writeCols (s e : ℕ) (c : Pixel) (g : Rows) :
    (writeCols s e c g).length = g.length := by
  simp [writeCols]

lemma writeCols_getD (s e : ℕ) (c : Pixel) (g : Rows) (i : ℕ) :
    (writeCols s e c g).getD i [] =
      (g.getD i []).mapIdx (fun j p => if s ≤ j ∧ j < e then c else p) := by
  by_cases hi : i < g.length
  · have h1 : i < (writeCols s e c g).length := by rw [length_writeCols]; omega
    rw [getD_eq_getElem _ [] i h1, getD_eq_getElem g [] i hi]
    unfold writeCols
    rw [List.getElem_map]
  · have h1 : (writeCols s e c g).length ≤ i := by rw [length_writeCols]; omega
    have h2 : g.length ≤ i := by omega
    rw [List.getD_eq_getElem?_getD, List.getD_eq_getElem?_getD,
      List.getElem?_eq_none h1, List.getElem?_eq_none h2]
    rfl

lemma mapIdx_getD (f : ℕ → Pixel → Pixel) (l : List Pixel) (j : ℕ)
    (hj : j < l.length) :
    (l.mapIdx f).getD j [] = f j (l.getD j []) := by
  have h1 : j < (l.mapIdx f).length := by rw [List.length_mapIdx]; omega
  rw [getD_eq_getElem _ [] j h1, getD_eq_getElem l [] j hj]
  simp [List.getElem_mapIdx]

lemma writeCols_pix (s e : ℕ) (c : Pixel) (g : Rows) (i j : ℕ)
    (hj : j < (g.getD i []).length) :
    pix (writeCols s e c g) i j =
      if s ≤ j ∧ j < e then c else pix g i j := by
  unfold pix
  rw [writeCols_getD s e c g i, mapIdx_getD _ _ j hj]

lemma take_getD (l : List Pixel) (w j : ℕ) (hj : j < min w l.length) :
    (l.take w).getD j [] = l.getD j [] := by
  have h1 : j < (l.take w).length := by simp [List.length_take]; omega
  rw [getD_eq_getElem _ [] j h1, getD_eq_getElem l [] j (by omega)]
  exact List.getElem_take l

lemma cropRows_pix (h w : ℕ) (g : Rows) (i j : ℕ) (hi : i < min h g.length)
    (hj : j < min w ((g.getD i []).length)) :
    pix (cropRows h w g) i j = pix g i j := by
  unfold pix
  rw [cropRows_getD h w g i hi, take_getD _ w j hj]

lemma assignColsFrom_pix (s : ℕ) (d r : Rows) (i j : ℕ)
    (hd : i < d.length) (hr : i < r.length)
    (hrow : (d.getD i []).length = (r.getD i []).length)
    (hj : j < (r.getD i []).length) :
    pix (assignColsFrom s d r) i j = if j < s then pix d i j else pix r i j := by
  unfold pix
  rw [assignColsFrom_getD s d r i hd hr, spliceRow_getElem s _ _ hrow j hj]

lemma zipWith_proj_right {α β : Type} (d : List α) (r : List β)
    (h : d.length = r.length) : List.zipWith (fun _ y => y) d r = r := by
  induction d generalizing r with
  | nil =>
    cases r with
    | nil => rfl
    | cons y ys => simp at h
  | cons x xs ih =>
    cases r with
    | nil => simp at h
    | cons y ys =>
      simp only [List.zipWith_cons_cons]
      rw [ih ys (by simpa using h)]

lemma assignColsFrom_zero (d r : Rows) (h : d.length = r.length) :
    assignColsFrom 0 d r = r := by
  unfold assignColsFrom
  simp only [List.take_zero, List.drop_zero, List.nil_append]
  exact zipWith_proj_right d r h

lemma assignColsFrom_all (s : ℕ) (d r : Rows) (h : d.length = r.length)
    (hd : ∀ row ∈ d, row.length ≤ s) (hr : ∀ row ∈ r, row.length ≤ s) :
    assignColsFrom s d r = d := by
  unfold assignColsFrom
  induction d generalizing r with
  | nil => simp
  | cons x xs ih =>
    cases r with
    | nil => simp at h
    | cons y ys =>
      simp only [List.zipWith_cons_cons]
      rw [List.take_of_length_le (hd x (by simp)),
        List.drop_eq_nil_of_le (hr y (by simp)), List.append_nil]
      congr 1
      exact ih ys (by simpa using h)
        (fun row hrow => hd row (List.mem_cons_of_mem _ hrow))
        (fun row hrow => hr row (List.mem_cons_of_mem _ hrow))

/-! Well-formedness helpers. -/

lemma Img.WF.data_length {g : Img} (h : g.WF) : g.data.length = g.height := h.1

lemma Img.WF.row_len {g : Img} (h : g.WF) (i : ℕ) (hi : i < g.height) :
    (g.data.getD i []).length = g.width := by
  have hi' : i < g.data.length := by rw [h.1]; omega
  rw [getD_eq_getElem _ [] i hi']
  exact (h.2 _ (List.getElem_mem hi')).1

lemma Img.WF.pix_len {g : Img} (h : g.WF) (i j : ℕ) (hi : i < g.height)
    (hj : j < g.width) : (pix g.data i j).length = g.channels := by
  have hi' : i < g.data.length := by rw [h.1]; omega
  have hrow := h.2 _ (List.getElem_mem hi')
  have hj' : j < (g.data[i]).length := by rw [hrow.1]; omega
  unfold pix
  rw [getD_eq_getElem _ [] i hi', getD_eq_getElem _ [] j hj']
  exact hrow.2 _ (List.getElem_mem hj')

lemma WF_mk_of_pix (H W c : ℕ) (d : Rows)
    (hlen : d.length = H)
    (hrow : ∀ i, i < H → (d.getD i []).length = W)
    (hpix : ∀ i j, i < H → j < W → (pix d i j).length = c) :
    Img.WF ⟨H, W, c, d⟩ := by
  unfold Img.WF
  dsimp only
  refine ⟨hlen, ?_⟩
  intro r hr
  obtain ⟨i, hi, hieq⟩ := List.mem_iff_getElem.mp hr
  have hiH : i < H := by omega
  have hrd : r = d.getD i [] := by rw [getD_eq_getElem _ [] i hi, hieq]
  have hrW : r.length = W := by rw [hrd]; exact hrow i hiH
  refine ⟨hrW, ?_⟩
  intro p hp
  obtain ⟨j, hj, hjeq⟩ := List.mem_iff_getElem.mp hp
  have hjW : j < W := by omega
  have hpd : p = pix d i j := by
    unfold pix
    rw [← hrd, getD_eq_getElem _ [] j hj, hjeq]
  rw [hpd]
  exact hpix i j hiH hjW

/-! Facts about the cropped split stage (lines 24-35 of `app.py`). -/

lemma cropRows_row_len {g : Img} {H W : ℕ} (hg : g.WF) (h1 : H ≤ g.height)
    (h3 : W ≤ g.width) (i : ℕ) (hi : i < H) :
    ((cropRows H W g.data).getD i []).length = W := by
  rw [cropRows_getD _ _ _ i (by rw [hg.data_length]; omega)]
  rw [List.length_take, hg.row_len i (by omega)]
  omega

lemma cropRows_pix_img {g : Img} {H W : ℕ} (hg : g.WF) (h1 : H ≤ g.height)
    (h3 : W ≤ g.width) (i j : ℕ) (hi : i < H) (hj : j < W) :
    pix (cropRows H W g.data) i j = pix g.data i j := by
  refine cropRows_pix H W g.data i j ?_ ?_
  · rw [hg.data_length]; omega
  · rw [hg.row_len i (by omega)]; omega

lemma split_length {A B : Img} {H W s : ℕ} (hA : A.WF) (hB : B.WF)
    (h1 : H ≤ A.height) (h2 : H ≤ B.height) :
    (assignColsFrom s (cropRows H W A.data) (cropRows H W B.data)).length = H := by
  rw [length_assignColsFrom, length_cropRows, length_cropRows,
    hA.data_length, hB.data_length]
  omega

lemma split_row_len {A B : Img} {H W s : ℕ} (hA : A.WF) (hB : B.WF)
    (h1 : H ≤ A.height) (h2 : H ≤ B.height) (h3 : W ≤ A.width) (h4 : W ≤ B.width)
    (i : ℕ) (hi : i < H) :
    ((assignColsFrom s (cropRows H W A.data) (cropRows H W B.data)).getD i []).length
      = W := by
  rw [assignColsFrom_getD s _ _ i
      (by rw [length_cropRows, hA.data_length]; omega)
      (by rw [length_cropRows, hB.data_length]; omega)]
  rw [spliceRow_length s _ _
      (by rw [cropRows_row_len hA h1 h3 i hi, cropRows_row_len hB h2 h4 i hi])]
  exact cropRows_row_len hB h2 h4 i hi

lemma split_pix {A B : Img} {H W s : ℕ} (hA : A.WF) (hB : B.WF)
    (h1 : H ≤ A.height) (h2 : H ≤ B.height) (h3 : W ≤ A.width) (h4 : W ≤ B.width)
    (i j : ℕ) (hi : i < H) (hj : j < W) :
    pix (assignColsFrom s (cropRows H W A.data) (cropRows H W B.data)) i j =
      if j < s then pix A.data i j else pix B.data i j := by
  rw [assignColsFrom_pix s _ _ i j
      (by rw [length_cropRows, hA.data_length]; omega)
      (by rw [length_cropRows, hB.data_length]; omega)
      (by rw [cropRows_row_len hA h1 h3 i hi, cropRows_row_len hB h2 h4 i hi])
      (by rw [cropRows_row_len hB h2 h4 i hi]; omega)]
  rw [cropRows_pix_img hA h1 h3 i j hi hj, cropRows_pix_img hB h2 h4 i j hi hj]

/-- Unfolding of `create_before_after_comparison` with its lets and record
projections reduced away. -/
lemma create_unfold (A B : Img) (f : ℚ) :
    create_before_after_comparison A B f =
      if B.channels = A.channels then
        if 0 < boundary_x (min A.width B.width) f ∧
            boundary_x (min A.width B.width) f < ((min A.width B.width : ℕ) : ℤ) - 1 then
          if A.channels = lineColor.length then
            some ⟨min A.height (min A.height B.height), min A.width (min A.width B.width),
                  A.channels,
                  writeCols
                    (sliceStart (min A.width B.width)
                      (max 0 (boundary_x (min A.width B.width) f - (line_thickness / 2 : ℕ))))
                    (sliceStart (min A.width B.width)
                      (min ((min A.width B.width : ℕ) : ℤ)
                        (boundary_x (min A.width B.width) f + (line_thickness / 2 : ℕ))))
                    lineColor
                    (assignColsFrom
                      (sliceStart (min A.width B.width) (boundary_x (min A.width B.width) f))
                      (cropRows (min A.height B.height) (min A.width B.width) A.data)
                      (cropRows (min A.height B.height) (min A.width B.width) B.data))⟩
          else none
        else
          some ⟨min A.height (min A.height B.height), min A.width (min A.width B.width),
                A.channels,
                assignColsFrom
                  (sliceStart (min A.width B.width) (boundary_x (min A.width B.width) f))
                  (cropRows (min A.height B.height) (min A.width B.width) A.data)
                  (cropRows (min A.height B.height) (min A.width B.width) B.data)⟩
      else none := rfl

/-- Full pixel-level characterization of the compositor on well-formed
3-channel inputs: the call returns an array of the common cropped shape,
whose pixel at `(i, j)` is the line color on the marker band and otherwise
comes from `imageA` left of the effective boundary and from `imageB` at or
right of it. -/
theorem create_spec (A B : Img) (hA : A.WF) (hB : B.WF)
    (hcA : A.channels = 3) (hcB : B.channels = 3) (f : ℚ) :
    ∃ out, create_before_after_comparison A B f = some out ∧
      out.height = min A.height B.height ∧
      out.width = min A.width B.width ∧
      out.channels = 3 ∧ out.WF ∧
      ∀ i j, i < min A.height B.height → j < min A.width B.width →
        pix out.data i j =
          if inMarkerBand (min A.width B.width) (boundary_x (min A.width B.width) f) j
          then lineColor
          else if j < sliceStart (min A.width B.width) (boundary_x (min A.width B.width) f)
          then pix A.data i j else pix B.data i j := by
  have h1 : min A.height B.height ≤ A.height := min_le_left _ _
  have h2 : min A.height B.height ≤ B.height := min_le_right _ _
  have h3 : min A.width B.width ≤ A.width := min_le_left _ _
  have h4 : min A.width B.width ≤ B.width := min_le_right _ _
  have hcs : B.channels = A.channels := by rw [hcA, hcB]
  have hHeq : min A.height (min A.height B.height) = min A.height B.height := by omega
  have hWeq : min A.width (min A.width B.width) = min A.width B.width := by omega
  rw [create_unfold, if_pos hcs]
  by_cases hg : 0 < boundary_x (min A.width B.width) f ∧
      boundary_x (min A.width B.width) f < ((min A.width B.width : ℕ) : ℤ) - 1
  · -- the marker branch of line 38 is taken
    rw [if_pos hg, if_pos (by rw [hcA]; rfl)]
    refine ⟨_, rfl, ?_, ?_, ?_, ?_, ?_⟩
    · exact hHeq
    · exact hWeq
    · exact hcA
    · rw [hHeq, hWeq]
      refine WF_mk_of_pix _ _ _ _ ?_ ?_ ?_
      · rw [length_writeCols]
        exact split_length hA hB h1 h2
      · intro i hi
        rw [writeCols_getD, List.length_mapIdx]
        exact split_row_len hA hB h1 h2 h3 h4 i hi
      · intro i j hi hj
        rw [writeCols_pix _ _ _ _ i j
            (by rw [split_row_len hA hB h1 h2 h3 h4 i hi]; omega)]
        split
        · rw [hcA]; rfl
        · rw [split_pix hA hB h1 h2 h3 h4 i j hi hj]
          split
          · rw [hA.pix_len i j (by omega) (by omega), hcA]
          · rw [hB.pix_len i j (by omega) (by omega), hcB, hcA]
    · intro i j hi hj
      dsimp only
      rw [writeCols_pix _ _ _ _ i j
          (by rw [split_row_len hA hB h1 h2 h3 h4 i hi]; omega)]
      rw [split_pix hA hB h1 h2 h3 h4 i j hi hj]
      unfold inMarkerBand
      simp only [hg, true_and]
  · -- the guard of line 38 fails: no marker is drawn
    rw [if_neg hg]
    refine ⟨_, rfl, ?_, ?_, ?_, ?_, ?_⟩
    · exact hHeq
    · exact hWeq
    · exact hcA
    · rw [hHeq, hWeq]
      refine WF_mk_of_pix _ _ _ _ ?_ ?_ ?_
      · exact split_length hA hB h1 h2
      · intro i hi
        exact split_row_len hA hB h1 h2 h3 h4 i hi
      · intro i j hi hj
        rw [split_pix hA hB h1 h2 h3 h4 i j hi hj]
        split
        · rw [hA.pix_len i j (by omega) (by omega), hcA]
        · rw [hB.pix_len i j (by omega) (by omega), hcB, hcA]
    · intro i j hi hj
      dsimp only
      rw [split_pix hA hB h1 h2 h3 h4 i j hi hj]
      have hnb : ¬ inMarkerBand (min A.width B.width)
          (boundary_x (min A.width B.width) f) j := by
        unfold inMarkerBand
        exact fun hcontra => hg hcontra.1
      rw [if_neg hnb]

/-! Arithmetic facts about the boundary computation of line 32. -/

lemma pyInt_of_nonneg (q : ℚ) (h : 0 ≤ q) : pyInt q = ⌊q⌋ := if_pos h

lemma boundary_x_nonneg (W : ℕ) (f : ℚ) (hf : 0 ≤ f) : 0 ≤ boundary_x W f := by
  unfold boundary_x
  rw [pyInt_of_nonneg _ (mul_nonneg (by positivity) hf)]
  exact Int.floor_nonneg.mpr (mul_nonneg (by positivity) hf)

lemma boundary_x_le_width (W : ℕ) (f : ℚ) (hf0 : 0 ≤ f) (hf1 : f ≤ 1) :
    boundary_x W f ≤ (W : ℤ) := by
  unfold boundary_x
  rw [pyInt_of_nonneg _ (mul_nonneg (by positivity) hf0)]
  calc ⌊(W : ℚ) * f⌋ ≤ ⌊((W : ℕ) : ℚ)⌋ :=
        Int.floor_le_floor (mul_le_of_le_one_right (by positivity) hf1)
  _ = (W : ℤ) := Int.floor_natCast W

lemma lt_sliceStart_iff (W : ℕ) (bx : ℤ) (h0 : 0 ≤ bx) (hW : bx ≤ (W : ℤ)) (j : ℕ) :
    j < sliceStart W bx ↔ (j : ℤ) < bx := by
  rw [sliceStart_of_nonneg W bx h0]
  omega

/-- C8.  For equal-sized well-formed 3-channel inputs and a fraction in
[0,1], the call succeeds and its pixels obey: the marker is applied exactly
when `boundary_x` lies strictly inside `(0, W-1)`, in which case precisely
the columns of `[max(0, bx - 3/2), min(W, bx + 3/2))` (integer floor
division, so the two columns `bx-1` and `bx`) hold `lineColor` across all
rows, and every other pixel is the plain left/right split. -/
theorem C8_marker_condition_and_band (A B : Img) (hA : A.WF) (hB : B.WF)
    (hh : A.height = B.height) (hw : A.width = B.width)
    (hcA : A.channels = 3) (hcB : B.channels = 3)
    (f : ℚ) (hf0 : 0 ≤ f) (hf1 : f ≤ 1) :
    ∃ out, create_before_after_comparison A B f = some out ∧
      ∀ i j, i < A.height → j < A.width →
        pix out.data i j =
          if (0 < boundary_x A.width f ∧ boundary_x A.width f < (A.width : ℤ) - 1) ∧
              (sliceStart A.width
                  (max 0 (boundary_x A.width f - (line_thickness / 2 : ℕ))) ≤ j ∧
               j < sliceStart A.width
                  (min (A.width : ℤ) (boundary_x A.width f + (line_thickness / 2 : ℕ))))
          then lineColor
          else if (j : ℤ) < boundary_x A.width f then pix A.data i j
          else pix B.data i j := by
  have hH : min A.height B.height = A.height := by omega
  have hW : min A.width B.width = A.width := by omega
  obtain ⟨out, hout, _, _, _, _, hpix⟩ := create_spec A B hA hB hcA hcB f
  rw [hH, hW] at hpix
  refine ⟨out, hout, ?_⟩
  intro i j hi hj
  rw [hpix i j hi hj]
  unfold inMarkerBand
  have hiff : (j < sliceStart A.width (boundary_x A.width f)) ↔
      ((j : ℤ) < boundary_x A.width f) :=
    lt_sliceStart_iff A.width _ (boundary_x_nonneg A.width f hf0)
      (boundary_x_le_width A.width f hf0 hf1) j
  by_cases hband : (0 < boundary_x A.width f ∧
      boundary_x A.width f < (A.width : ℤ) - 1) ∧
      (sliceStart A.width
          (max 0 (boundary_x A.width f - (line_thickness / 2 : ℕ))) ≤ j ∧
       j < sliceStart A.width
          (min (A.width : ℤ) (boundary_x A.width f + (line_thickness / 2 : ℕ))))
  · rw [if_pos hband, if_pos hband]
  · rw [if_neg hband, if_neg hband]
    by_cases hsplit : j < sliceStart A.width (boundary_x A.width f)
    · rw [if_pos hsplit, if_pos (hiff.mp hsplit)]
    · rw [if_neg hsplit, if_neg (fun hc => hsplit (hiff.mpr hc))]

/-- C8 witness: the theorem applied at a concrete input.  For width 10
and fraction 1/2 the boundary is 5, inside (0, 9); column 4 lies in the
band `[4, 6)` and receives the line color. -/
theorem C8_marker_condition_and_band_witness :
    (0 : ℚ) ≤ 1/2 ∧
    pixAt (create_before_after_comparison
      (uniformImg 2 10 [1,1,1]) (uniformImg 2 10 [9,9,9]) (1/2)) 1 4 = lineColor := by
  refine ⟨by decide, ?_⟩
  obtain ⟨out, hout, hpix⟩ := C8_marker_condition_and_band
    (uniformImg 2 10 [1,1,1]) (uniformImg 2 10 [9,9,9])
    (by decide) (by decide) (by decide) (by decide) (by decide) (by decide)
    (1/2) (by decide) (by decide)
  rw [hout]
  unfold pixAt
  dsimp only
  rw [hpix 1 4 (by decide) (by decide)]
  rw [if_pos (by decide)]

/-- C4.  Boundary exactness outside the marker band: with
`boundaryColumn = boundary_x W f` for a fraction in [0,1], every output
pixel at a column outside the marker band equals imageA's pixel when the
column is left of the boundary and imageB's pixel otherwise. -/
theorem C4_boundary_exactness (A B : Img) (hA : A.WF) (hB : B.WF)
    (hh : A.height = B.height) (hw : A.width = B.width)
    (hcA : A.channels = 3) (hcB : B.channels = 3)
    (f : ℚ) (hf0 : 0 ≤ f) (hf1 : f ≤ 1) :
    ∃ out, create_before_after_comparison A B f = some out ∧
      ∀ i j, i < A.height → j < A.width →
        ¬ inMarkerBand A.width (boundary_x A.width f) j →
        pix out.data i j =
          if (j : ℤ) < boundary_x A.width f then pix A.data i j
          else pix B.data i j := by
  have hH : min A.height B.height = A.height := by omega
  have hW : min A.width B.width = A.width := by omega
  obtain ⟨out, hout, _, _, _, _, hpix⟩ := create_spec A B hA hB hcA hcB f
  rw [hH, hW] at hpix
  refine ⟨out, hout, ?_⟩
  intro i j hi hj hband
  rw [hpix i j hi hj, if_neg hband]
  have hiff : (j < sliceStart A.width (boundary_x A.width f)) ↔
      ((j : ℤ) < boundary_x A.width f) :=
    lt_sliceStart_iff A.width _ (boundary_x_nonneg A.width f hf0)
      (boundary_x_le_width A.width f hf0 hf1) j
  by_cases hsplit : j < sliceStart A.width (boundary_x A.width f)
  · rw [if_pos hsplit, if_pos (hiff.mp hsplit)]
  · rw [if_neg hsplit, if_neg (fun hc => hsplit (hiff.mpr hc))]

/-- C4 witness: the theorem applied at a concrete input; column 8 is
outside the band `[4, 6)` and right of boundary 5, so it shows imageB. -/
theorem C4_boundary_exactness_witness :
    (0 : ℚ) ≤ 1/2 ∧
    pixAt (create_before_after_comparison
      (uniformImg 1 10 [4,4,4]) (uniformImg 1 10 [6,6,6]) (1/2)) 0 8 = [6,6,6] := by
  refine ⟨by decide, ?_⟩
  obtain ⟨out, hout, hpix⟩ := C4_boundary_exactness
    (uniformImg 1 10 [4,4,4]) (uniformImg 1 10 [6,6,6])
    (by decide) (by decide) (by decide) (by decide) (by decide) (by decide)
    (1/2) (by decide) (by decide)
  rw [hout]
  unfold pixAt
  dsimp only
  rw [hpix 0 8 (by decide) (by decide) (by decide)]
  rw [if_neg (by decide)]
  decide

/-- C6.  Whenever the compositor returns a grid, that grid is well formed
with height the minimum of the two input heights and width the minimum of
the two input widths (the common post-crop dimensions). -/
theorem C6_output_dims (A B : Img) (hA : A.WF) (hB : B.WF) (f : ℚ) :
    ∀ out, create_before_after_comparison A B f = some out →
      out.height = min A.height B.height ∧ out.width = min A.width B.width ∧
      out.WF := by
  have h1 : min A.height B.height ≤ A.height := min_le_left _ _
  have h2 : min A.height B.height ≤ B.height := min_le_right _ _
  have h3 : min A.width B.width ≤ A.width := min_le_left _ _
  have h4 : min A.width B.width ≤ B.width := min_le_right _ _
  intro out hout
  rw [create_unfold] at hout
  by_cases hch : B.channels = A.channels
  · rw [if_pos hch] at hout
    by_cases hg : 0 < boundary_x (min A.width B.width) f ∧
        boundary_x (min A.width B.width) f < ((min A.width B.width : ℕ) : ℤ) - 1
    · rw [if_pos hg] at hout
      by_cases hch3 : A.channels = lineColor.length
      · rw [if_pos hch3] at hout
        injection hout with hout
        subst hout
        refine ⟨by dsimp only; omega, by dsimp only; omega, ?_⟩
        refine WF_mk_of_pix _ _ _ _ ?_ ?_ ?_
        · rw [length_writeCols, split_length hA hB h1 h2]
          omega
        · intro i hi
          rw [writeCols_getD, List.length_mapIdx]
          rw [split_row_len hA hB h1 h2 h3 h4 i (by omega)]
          omega
        · intro i j hi hj
          rw [writeCols_pix _ _ _ _ i j
              (by rw [split_row_len hA hB h1 h2 h3 h4 i (by omega)]; omega)]
          split
          · exact hch3.symm
          · rw [split_pix hA hB h1 h2 h3 h4 i j (by omega) (by omega)]
            split
            · exact hA.pix_len i j (by omega) (by omega)
            · rw [hB.pix_len i j (by omega) (by omega)]
              exact hch
      · rw [if_neg hch3] at hout
        exact absurd hout (by simp)
    · rw [if_neg hg] at hout
      injection hout with hout
      subst hout
      refine ⟨by dsimp only; omega, by dsimp only; omega, ?_⟩
      refine WF_mk_of_pix _ _ _ _ ?_ ?_ ?_
      · rw [split_length hA hB h1 h2]
        omega
      · intro i hi
        rw [split_row_len hA hB h1 h2 h3 h4 i (by omega)]
        omega
      · intro i j hi hj
        rw [split_pix hA hB h1 h2 h3 h4 i j (by omega) (by omega)]
        split
        · exact hA.pix_len i j (by omega) (by omega)
        · rw [hB.pix_len i j (by omega) (by omega)]
          exact hch
  · rw [if_neg hch] at hout
    exact absurd hout (by simp)

/-- C6 witness: the theorem applied to concrete inputs of different
sizes (2x5 and 3x4); the output is the common cropped 2x4 shape. -/
theorem C6_output_dims_witness :
    (create_before_after_comparison
      (uniformImg 2 5 [7,7,7]) (uniformImg 3 4 [3,3,3]) (1/3)).map Img.height = some 2 ∧
    (create_before_after_comparison
      (uniformImg 2 5 [7,7,7]) (uniformImg 3 4 [3,3,3]) (1/3)).map Img.width = some 4 := by
  have hsome : create_before_after_comparison
      (uniformImg 2 5 [7,7,7]) (uniformImg 3 4 [3,3,3]) (1/3) =
      some ⟨2, 4, 3,
        [[[255,255,255],[255,255,255],[3,3,3],[3,3,3]],
         [[255,255,255],[255,255,255],[3,3,3],[3,3,3]]]⟩ := by decide
  have h := C6_output_dims (uniformImg 2 5 [7,7,7]) (uniformImg 3 4 [3,3,3])
    (by decide) (by decide) (1/3) _ hsome
  constructor
  · exact (congrArg (Option.map Img.height) hsome).trans
      (congrArg some (h.1.trans (by decide)))
  · exact (congrArg (Option.map Img.width) hsome).trans
      (congrArg some (h.2.1.trans (by decide)))

/-! Identities used for the extreme fractions. -/

lemma map_take_self (w : ℕ) (g : Rows) (h : ∀ r ∈ g, r.length ≤ w) :
    g.map (fun r => r.take w) = g := by
  induction g with
  | nil => rfl
  | cons x xs ih =>
    simp only [List.map_cons]
    rw [List.take_of_length_le (h x (by simp)),
      ih (fun r hr => h r (List.mem_cons_of_mem _ hr))]

lemma cropRows_full {g : Img} (hg : g.WF) (h w : ℕ) (hh : g.height ≤ h)
    (hw : g.width ≤ w) : cropRows h w g.data = g.data := by
  unfold cropRows
  rw [List.take_of_length_le (by rw [hg.data_length]; omega)]
  exact map_take_self w g.data (fun r hr => by rw [(hg.2 r hr).1]; omega)

lemma boundary_x_zero (W : ℕ) : boundary_x W 0 = 0 := by
  unfold boundary_x
  rw [mul_zero, pyInt_of_nonneg _ le_rfl, Int.floor_zero]

lemma boundary_x_one (W : ℕ) : boundary_x W 1 = (W : ℤ) := by
  unfold boundary_x
  rw [mul_one, pyInt_of_nonneg _ (by positivity), Int.floor_natCast]

lemma sliceStart_zero (W : ℕ) : sliceStart W 0 = 0 := by
  rw [sliceStart_of_nonneg _ _ le_rfl]
  omega

lemma sliceStart_cast_self (W : ℕ) : sliceStart W (W : ℤ) = W := by
  rw [sliceStart_of_nonneg _ _ (by positivity)]
  omega

/-- C5.  At the extreme fractions the compositor is the identity on one
input: fraction 0 returns imageB exactly and fraction 1 returns imageA
exactly, with no marker drawn in either case. -/
theorem C5_identity_at_extremes (A B : Img) (hA : A.WF) (hB : B.WF)
    (hh : A.height = B.height) (hw : A.width = B.width)
    (hc : A.channels = B.channels) (hW2 : 2 ≤ A.width) :
    create_before_after_comparison A B 0 = some B ∧
    create_before_after_comparison A B 1 = some A := by
  have hH : min A.height B.height = A.height := by omega
  have hW : min A.width B.width = A.width := by omega
  constructor
  · rw [create_unfold, if_pos hc.symm]
    simp only [hH, hW, min_self]
    rw [boundary_x_zero]
    rw [if_neg (by omega)]
    rw [sliceStart_zero]
    rw [cropRows_full hA A.height A.width le_rfl le_rfl]
    rw [cropRows_full hB A.height A.width (le_of_eq hh.symm) (le_of_eq hw.symm)]
    rw [assignColsFrom_zero _ _ (by rw [hA.data_length, hB.data_length, hh])]
    rw [hh, hw, hc]
  · rw [create_unfold, if_pos hc.symm]
    simp only [hH, hW, min_self]
    rw [boundary_x_one]
    rw [if_neg (by omega)]
    rw [sliceStart_cast_self]
    rw [cropRows_full hA A.height A.width le_rfl le_rfl]
    rw [cropRows_full hB A.height A.width (le_of_eq hh.symm) (le_of_eq hw.symm)]
    rw [assignColsFrom_all A.width _ _ (by rw [hA.data_length, hB.data_length, hh])
      (fun r hr => le_of_eq (hA.2 r hr).1)
      (fun r hr => le_of_eq ((hB.2 r hr).1.trans hw.symm))]

/-- C5 witness: the theorem applied at a concrete 1x4 pair. -/
theorem C5_identity_at_extremes_witness :
    create_before_after_comparison (uniformImg 1 4 [5,5,5]) (uniformImg 1 4 [6,6,6]) 0 =
      some (uniformImg 1 4 [6,6,6]) ∧
    create_before_after_comparison (uniformImg 1 4 [5,5,5]) (uniformImg 1 4 [6,6,6]) 1 =
      some (uniformImg 1 4 [5,5,5]) :=
  C5_identity_at_extremes (uniformImg 1 4 [5,5,5]) (uniformImg 1 4 [6,6,6])
    (by decide) (by decide) (by decide) (by decide) (by decide) (by decide)

lemma avoidsColor_pix {g : Img} (hg : g.WF) {c : Pixel} (h : avoidsColor g.data c)
    (i j : ℕ) (hi : i < g.height) (hj : j < g.width) :
    pix g.data i j ≠ c := by
  have hi' : i < g.data.length := by rw [hg.data_length]; omega
  have hj' : j < (g.data[i]).length := by
    rw [(hg.2 _ (List.getElem_mem hi')).1]
    omega
  rw [pix_eq_getElem g.data i j hi' hj']
  exact h _ (List.getElem_mem hi') _ (List.getElem_mem hj')

/-- C1 counterexample: with the spec's own concrete numbers (width 10,
fraction 1/2, boundary column 5, which lies strictly between 1 and W-2=8)
the column `boundaryColumn + 1 = 6` does not hold the line color, so the
marker does not cover 3 columns centered at the boundary. -/
theorem C1_three_column_counterexample :
    boundary_x 10 (1/2) = 5 ∧
    pixAt (create_before_after_comparison
      (uniformImg 1 10 [2,2,2]) (uniformImg 1 10 [8,8,8]) (1/2)) 0 6 ≠ lineColor := by
  decide

/-- C1 amended: with lineWidth 3 the integer division `3 / 2 = 1` makes
the drawn band `[boundaryColumn - 1, boundaryColumn + 1)`, so for a
boundary column strictly between 1 and W-2 exactly the TWO columns
`boundaryColumn - 1` and `boundaryColumn` equal the line color in the
output (for inputs that nowhere contain the line color themselves). -/
theorem C1_marker_covers_two_columns (A B : Img) (hA : A.WF) (hB : B.WF)
    (hh : A.height = B.height) (hw : A.width = B.width)
    (hcA : A.channels = 3) (hcB : B.channels = 3)
    (hAav : avoidsColor A.data lineColor) (hBav : avoidsColor B.data lineColor)
    (f : ℚ) (hf0 : 0 ≤ f) (hf1 : f ≤ 1)
    (hlo : 1 < boundary_x A.width f) (hhi : boundary_x A.width f < (A.width : ℤ) - 2) :
    ∃ out, create_before_after_comparison A B f = some out ∧
      ∀ i j, i < A.height → j < A.width →
        (pix out.data i j = lineColor ↔
          ((j : ℤ) = boundary_x A.width f - 1 ∨ (j : ℤ) = boundary_x A.width f)) := by
  have hH : min A.height B.height = A.height := by omega
  have hW : min A.width B.width = A.width := by omega
  obtain ⟨out, hout, _, _, _, _, hpix⟩ := create_spec A B hA hB hcA hcB f
  rw [hH, hW] at hpix
  refine ⟨out, hout, ?_⟩
  intro i j hi hj
  rw [hpix i j hi hj]
  have hl2 : (line_thickness / 2 : ℕ) = 1 := rfl
  by_cases hband : inMarkerBand A.width (boundary_x A.width f) j
  · rw [if_pos hband]
    obtain ⟨hg, hj1, hj2⟩ := hband
    rw [hl2, sliceStart_of_nonneg _ _ (by omega)] at hj1
    rw [hl2, sliceStart_of_nonneg _ _ (by omega)] at hj2
    exact iff_of_true rfl (by omega)
  · rw [if_neg hband]
    have hne : (if j < sliceStart A.width (boundary_x A.width f)
        then pix A.data i j else pix B.data i j) ≠ lineColor := by
      split
      · exact avoidsColor_pix hA hAav i j hi hj
      · exact avoidsColor_pix hB hBav i j (by omega) (by omega)
    refine iff_of_false hne ?_
    intro hor
    apply hband
    refine ⟨⟨by omega, by omega⟩, ?_, ?_⟩
    · rw [hl2, sliceStart_of_nonneg _ _ (by omega)]
      omega
    · rw [hl2, sliceStart_of_nonneg _ _ (by omega)]
      omega

/-- C1 witness: the amended theorem applied at a concrete input.  For
width 10 and fraction 1/2 the boundary column is 5 and column 5 holds the
line color. -/
theorem C1_marker_covers_two_columns_witness :
    (1 : ℤ) < boundary_x 10 (1/2) ∧
    pixAt (create_before_after_comparison
      (uniformImg 2 10 [2,2,2]) (uniformImg 2 10 [8,8,8]) (1/2)) 0 5 = lineColor := by
  refine ⟨by decide, ?_⟩
  obtain ⟨out, hout, hiff⟩ := C1_marker_covers_two_columns
    (uniformImg 2 10 [2,2,2]) (uniformImg 2 10 [8,8,8])
    (by decide) (by decide) (by decide) (by decide) (by decide) (by decide)
    (by decide) (by decide)
    (1/2) (by decide) (by decide) (by decide) (by decide)
  rw [hout]
  unfold pixAt
  dsimp only
  exact (hiff 0 5 (by decide) (by decide)).mpr (Or.inr (by decide))

/-- C9 counterexample: in the spec's concrete scenario (W=10, H=1,
imageA all (1,1,1), imageB all (9,9,9), fraction 1/2) column 6 shows
imageB's pixel (9,9,9), not the claimed marker color. -/
theorem C9_band_counterexample :
    pixAt (create_before_after_comparison
      (uniformImg 1 10 [1,1,1]) (uniformImg 1 10 [9,9,9]) (1/2)) 0 6 = [9,9,9] ∧
    ([9,9,9] : Pixel) ≠ [255,255,255] := by
  decide

/-- C9 amended: the concrete scenario evaluated on the code.  The
boundary column is 5 and the marker covers only the two columns 4 and 5;
columns 0-3 show (1,1,1), columns 4-5 show (255,255,255), and columns
6-9 show (9,9,9). -/
theorem C9_concrete_scenario :
    create_before_after_comparison
      (uniformImg 1 10 [1,1,1]) (uniformImg 1 10 [9,9,9]) (1/2) =
      some ⟨1, 10, 3,
        [[[1,1,1],[1,1,1],[1,1,1],[1,1,1],
          [255,255,255],[255,255,255],
          [9,9,9],[9,9,9],[9,9,9],[9,9,9]]]⟩ := by
  decide

/-- C3 counterexample: on a pair of well-formed 4-channel RGBA grids with
the marker condition met, the call raises (the fixed 3-channel line color
of line 42 cannot be broadcast into a 4-channel array), so the compositor
is not total on RGBA inputs. -/
theorem C3_rgba_failure :
    create_before_after_comparison
      (uniformImg 1 4 [1,1,1,1]) (uniformImg 1 4 [9,9,9,9]) (1/2) = none := by
  decide

/-- C3 amended: the compositor is total on 3-channel inputs: for every
pair of 3-channel grids and every rational fraction it returns a grid and
never raises. -/
theorem C3_total_for_three_channels (A B : Img)
    (hcA : A.channels = 3) (hcB : B.channels = 3) (f : ℚ) :
    (create_before_after_comparison A B f).isSome = true := by
  rw [create_unfold, if_pos (by rw [hcA, hcB])]
  by_cases hg : 0 < boundary_x (min A.width B.width) f ∧
      boundary_x (min A.width B.width) f < ((min A.width B.width : ℕ) : ℤ) - 1
  · rw [if_pos hg, if_pos (by rw [hcA]; rfl)]
    rfl
  · rw [if_neg hg]
    rfl

/-- C3 witness: the totality theorem applied at a concrete 3-channel
input. -/
theorem C3_total_for_three_channels_witness :
    (create_before_after_comparison
      (uniformImg 3 7 [8,8,8]) (uniformImg 3 7 [2,2,2]) (2/7)).isSome = true :=
  C3_total_for_three_channels (uniformImg 3 7 [8,8,8]) (uniformImg 3 7 [2,2,2])
    (by decide) (by decide) (2/7)

/-! Behavior at out-of-range fractions (the code has no clamping). -/

lemma boundary_x_ge_width (W : ℕ) (f : ℚ) (hf : 1 ≤ f) :
    (W : ℤ) ≤ boundary_x W f := by
  unfold boundary_x
  rw [pyInt_of_nonneg _ (mul_nonneg (by positivity) (le_trans zero_le_one hf))]
  exact Int.le_floor.mpr (by push_cast; exact le_mul_of_one_le_right (by positivity) hf)

/-- Any fraction at least 1 behaves exactly like the fraction 1: the slice
start saturates at the width and the marker guard fails in both calls. -/
lemma create_at_high_fraction (A B : Img) (f : ℚ) (hf : 1 ≤ f) :
    create_before_after_comparison A B f = create_before_after_comparison A B 1 := by
  have hge := boundary_x_ge_width (min A.width B.width) f hf
  have h1 : boundary_x (min A.width B.width) 1 = ((min A.width B.width : ℕ) : ℤ) :=
    boundary_x_one _
  rw [create_unfold, create_unfold]
  by_cases hch : B.channels = A.channels
  · rw [if_pos hch, if_pos hch]
    rw [if_neg (by omega), if_neg (by rw [h1]; omega)]
    have hs : sliceStart (min A.width B.width) (boundary_x (min A.width B.width) f) =
        sliceStart (min A.width B.width) (boundary_x (min A.width B.width) 1) := by
      rw [h1, sliceStart_of_nonneg _ _ (by omega), sliceStart_of_nonneg _ _ (by omega)]
      omega
    rw [hs]
  · rw [if_neg hch, if_neg hch]

lemma boundary_x_neg_half (W : ℕ) (hW : 1 ≤ W) :
    boundary_x W (-(1/2)) = -((W : ℤ) / 2) := by
  unfold boundary_x pyInt
  have hq : (W : ℚ) * (-(1/2)) = -((W : ℚ) / 2) := by ring
  rw [hq]
  have hWQ : (0 : ℚ) < (W : ℚ) := by exact_mod_cast hW
  have hneg : ¬ (0 ≤ -((W : ℚ) / 2)) := by
    push_neg
    have := div_pos hWQ (by norm_num : (0:ℚ) < 2)
    linarith
  rw [if_neg hneg, Int.ceil_neg]
  congr 1
  have hfl := Rat.floor_intCast_div_natCast (W : ℤ) 2
  push_cast at hfl
  exact_mod_cast hfl

/-- C2 counterexample: the code does not clamp negative fractions.  With
W=10 the fraction -0.5 yields `boundary_x = -5`, which as a Python slice
start counts from the right, so the result differs from the result at
fraction 0 (which is entirely imageB). -/
theorem C2_negative_not_clamped :
    create_before_after_comparison
      (uniformImg 1 10 [1,1,1]) (uniformImg 1 10 [9,9,9]) (-(1/2)) ≠
    create_before_after_comparison
      (uniformImg 1 10 [1,1,1]) (uniformImg 1 10 [9,9,9]) 0 := by
  decide

/-- C2 amended: fractions above 1 are effectively clamped (composite at
1.7 equals composite at 1.0), but negative fractions are NOT clamped to
0: composite at -0.5 is the unmarked split at column `W - W/2` (Python
negative-index wraparound), not the all-imageB result of fraction 0. -/
theorem C2_clamping_amended (A B : Img) (hA : A.WF) (hB : B.WF)
    (hh : A.height = B.height) (hw : A.width = B.width)
    (hcA : A.channels = 3) (hcB : B.channels = 3) (hW2 : 2 ≤ A.width) :
    create_before_after_comparison A B (17/10) = create_before_after_comparison A B 1 ∧
    ∃ out, create_before_after_comparison A B (-(1/2)) = some out ∧
      ∀ i j, i < A.height → j < A.width →
        pix out.data i j =
          if j < A.width - A.width / 2 then pix A.data i j else pix B.data i j := by
  have hH : min A.height B.height = A.height := by omega
  have hW : min A.width B.width = A.width := by omega
  refine ⟨create_at_high_fraction A B (17/10) (by norm_num), ?_⟩
  obtain ⟨out, hout, _, _, _, _, hpix⟩ := create_spec A B hA hB hcA hcB (-(1/2))
  rw [hH, hW] at hpix
  have hbneg : boundary_x A.width (-(1/2)) = -((A.width : ℤ) / 2) :=
    boundary_x_neg_half A.width (by omega)
  have hs : sliceStart A.width (boundary_x A.width (-(1/2))) =
      A.width - A.width / 2 := by
    rw [hbneg]
    unfold sliceStart
    rw [if_pos (by omega)]
    omega
  have hnoband : ∀ j : ℕ, ¬ inMarkerBand A.width (boundary_x A.width (-(1/2))) j := by
    intro j hband
    have := hband.1.1
    omega
  refine ⟨out, hout, ?_⟩
  intro i j hi hj
  rw [hpix i j hi hj, if_neg (hnoband j), hs]

/-- C2 witness: the amended theorem applied at a concrete 1x6 pair;
fraction -0.5 leaves column 2 (left of the wrapped boundary 3) showing
imageA. -/
theorem C2_clamping_amended_witness :
    create_before_after_comparison
      (uniformImg 1 6 [2,2,2]) (uniformImg 1 6 [7,7,7]) (17/10) =
    create_before_after_comparison
      (uniformImg 1 6 [2,2,2]) (uniformImg 1 6 [7,7,7]) 1 ∧
    pixAt (create_before_after_comparison
      (uniformImg 1 6 [2,2,2]) (uniformImg 1 6 [7,7,7]) (-(1/2))) 0 2 = [2,2,2] := by
  obtain ⟨hhigh, out, hout, hpix⟩ := C2_clamping_amended
    (uniformImg 1 6 [2,2,2]) (uniformImg 1 6 [7,7,7])
    (by decide) (by decide) (by decide) (by decide) (by decide) (by decide) (by decide)
  refine ⟨hhigh, ?_⟩
  rw [hout]
  unfold pixAt
  dsimp only
  rw [hpix 0 2 (by decide) (by decide)]
  rw [if_pos (by decide)]
  decide

/-- C10.  Monotonicity of the split: for fractions `0 ≤ f1 ≤ f2 ≤ 1` on a
width-W image the computed boundary column for f1 is at most the one for
f2, so the columns taken from imageB under f2 (those at or right of the
effective slice start) form a subset of those taken under f1. -/
theorem C10_boundary_monotone (W : ℕ) (f1 f2 : ℚ)
    (h0 : 0 ≤ f1) (h12 : f1 ≤ f2) (h1 : f2 ≤ 1) :
    boundary_x W f1 ≤ boundary_x W f2 ∧
    ∀ j : ℕ, sliceStart W (boundary_x W f2) ≤ j →
      sliceStart W (boundary_x W f1) ≤ j := by
  have hmono : boundary_x W f1 ≤ boundary_x W f2 := by
    unfold boundary_x
    rw [pyInt_of_nonneg _ (mul_nonneg (by positivity) h0),
      pyInt_of_nonneg _ (mul_nonneg (by positivity) (le_trans h0 h12))]
    exact Int.floor_le_floor (mul_le_mul_of_nonneg_left h12 (by positivity))
  refine ⟨hmono, ?_⟩
  intro j hj
  exact le_trans (sliceStart_mono W (boundary_x_nonneg W f1 h0) hmono) hj

/-- C10 witness: the theorem applied at width 10 with fractions 1/4 and
3/4. -/
theorem C10_boundary_monotone_witness :
    boundary_x 10 (1/4) ≤ boundary_x 10 (3/4) :=
  (C10_boundary_monotone 10 (1/4) (3/4) (by decide) (by decide) (by decide)).1

/-! A small mutable-buffer model for the frame property (claim C7).
numpy arrays are buffers in a heap; `np.array(...)` (lines 20-21) and
`np.copy(...)` (line 29) allocate fresh buffers, the basic slicing of
lines 25-26 creates views (no copy), and the slice assignments of lines
35 and 42 write in place into the buffer they target.  The caller's
source image buffers are held separately in `pilA` and `pilB` and are
never the target of a write. -/

structure NpState where
  pilA : Rows
  pilB : Rows
  heap : List Rows
  deriving DecidableEq

/-- Allocate a fresh buffer holding `g`; returns its index and the new
state. -/
def alloc (g : Rows) (st : NpState) : ℕ × NpState :=
  (st.heap.length, { st with heap := st.heap ++ [g] })

/-- Read the contents of buffer `i`. -/
def readBuf (st : NpState) (i : ℕ) : Rows := st.heap.getD i []

/-- Overwrite buffer `i` in place. -/
def writeBuf (i : ℕ) (new : Rows) (st : NpState) : NpState :=
  { st with heap := st.heap.set i new }

/-- `create_before_after_comparison` with its buffer mutations explicit:
the two `np.array` calls and the `np.copy` call allocate, and the two
slice assignments mutate only the result buffer `iR`.  Returns the final
state and the index of the result buffer (`none` models a raised
broadcast error). -/
def create_trace (image1 image2 : Img) (slider_position : ℚ) :
    NpState × Option ℕ :=
  let st0 : NpState := ⟨image1.data, image2.data, []⟩
  let a0 := alloc st0.pilA st0
  let a1 := alloc a0.2.pilB a0.2
  let iA := a0.1
  let iB := a1.1
  let st2 := a1.2
  let height := min image1.height image2.height
  let width := min image1.width image2.width
  let a2 := alloc (cropRows height width (readBuf st2 iA)) st2
  let iR := a2.1
  let st3 := a2.2
  let bx := boundary_x width slider_position
  if image2.channels = image1.channels then
    let s := sliceStart width bx
    let st4 := writeBuf iR
      (assignColsFrom s (readBuf st3 iR) (cropRows height width (readBuf st3 iB))) st3
    if 0 < bx ∧ bx < (width : ℤ) - 1 then
      if image1.channels = lineColor.length then
        let sx := sliceStart width (max 0 (bx - (line_thickness / 2 : ℕ)))
        let ex := sliceStart width (min (width : ℤ) (bx + (line_thickness / 2 : ℕ)))
        (writeBuf iR (writeCols sx ex lineColor (readBuf st4 iR)) st4, some iR)
      else (st4, none)
    else (st4, some iR)
  else (st3, none)

/-- The traced version computes the same result data as the pure
embedding, so the frame theorem below is about the same computation. -/
lemma create_trace_agrees (A B : Img) (f : ℚ) :
    ((create_trace A B f).2.map (readBuf (create_trace A B f).1)) =
      (create_before_after_comparison A B f).map Img.data := by
  rw [create_unfold]
  unfold create_trace alloc writeBuf readBuf
  dsimp only
  split
  · split
    · split
      · rfl
      · rfl
    · rfl
  · rfl

/-- C7.  Non-mutation: after a call, the caller's two source image pixel
buffers are unchanged — every write of the call targets the freshly
allocated result buffer, never `pilA` or `pilB`. -/
theorem C7_non_mutation (A B : Img) (f : ℚ) :
    (create_trace A B f).1.pilA = A.data ∧ (create_trace A B f).1.pilB = B.data := by
  unfold create_trace alloc writeBuf readBuf
  dsimp only
  split
  · split
    · split
      · exact ⟨rfl, rfl⟩
      · exact ⟨rfl, rfl⟩
    · exact ⟨rfl, rfl⟩
  · exact ⟨rfl, rfl⟩

end BeforeAfter
